import Mathlib

/-!
Verification of the CST snapshot serializer of
crates/solidity/testing/utils/src/cst_snapshots/mod.rs.

Source text, previews and rendered values are modelled as lists of bytes
(List Nat, each entry < 256 for meaningful inputs); Rust byte-level
operations (skip/take, String::from_utf8, char replacement on ASCII
characters) translate directly.
-/

/-- Bytes of the truncation marker appended by render_preview (three dots). -/
def dots : List Nat := [46, 46, 46]

/-- Replaces every occurrence of the byte a by the byte sequence sub, as
Rust String::replace does for a single-character (ASCII) pattern. -/
def replaceByte (a : Nat) (sub : List Nat) (l : List Nat) : List Nat :=
  l.flatMap (fun b => if b = a then sub else [b])

/-- Escapes tabs, carriage returns and newlines, mirroring the three
chained replace calls of render_preview (backslash-t, backslash-r,
backslash-n). -/
def escapeBreaks (l : List Nat) : List Nat :=
  replaceByte 10 [92, 110] (replaceByte 13 [92, 114] (replaceByte 9 [92, 116] l))

/-- Surrounds the contents by quotes for use in yaml, mirroring
render_preview: if the contents contain a double quote (34), single
quotes (39) are doubled and the whole is wrapped in single quotes;
otherwise double quotes are replaced by backslash-quote (a no-op on that
branch) and the whole is wrapped in double quotes. -/
def quoteYaml (contents : List Nat) : List Nat :=
  if contents.contains 34 then
    39 :: (replaceByte 39 [39, 39] contents ++ [39])
  else
    34 :: (replaceByte 34 [92, 34] contents ++ [34])

/-- Tests whether a byte is a UTF-8 continuation byte (0x80-0xBF). -/
def utf8Cont (b : Nat) : Bool := 128 ≤ b && b < 192

/-- Validates a byte list as UTF-8 per RFC 3629, the check performed by
Rust String::from_utf8. -/
def utf8Valid : List Nat → Bool
  | [] => true
  | b :: rest =>
    if b < 128 then utf8Valid rest
    else if 194 ≤ b && b ≤ 223 then
      match rest with
      | c1 :: rest' => utf8Cont c1 && utf8Valid rest'
      | [] => false
    else if b = 224 then
      match rest with
      | c1 :: c2 :: rest' => (160 ≤ c1 && c1 < 192) && utf8Cont c2 && utf8Valid rest'
      | _ => false
    else if (225 ≤ b && b ≤ 236) || b = 238 || b = 239 then
      match rest with
      | c1 :: c2 :: rest' => utf8Cont c1 && utf8Cont c2 && utf8Valid rest'
      | _ => false
    else if b = 237 then
      match rest with
      | c1 :: c2 :: rest' => (128 ≤ c1 && c1 < 160) && utf8Cont c2 && utf8Valid rest'
      | _ => false
    else if b = 240 then
      match rest with
      | c1 :: c2 :: c3 :: rest' =>
        (144 ≤ c1 && c1 < 192) && utf8Cont c2 && utf8Cont c3 && utf8Valid rest'
      | _ => false
    else if 241 ≤ b && b ≤ 243 then
      match rest with
      | c1 :: c2 :: c3 :: rest' =>
        utf8Cont c1 && utf8Cont c2 && utf8Cont c3 && utf8Valid rest'
      | _ => false
    else if b = 244 then
      match rest with
      | c1 :: c2 :: c3 :: rest' =>
        (128 ≤ c1 && c1 < 144) && utf8Cont c2 && utf8Cont c3 && utf8Valid rest'
      | _ => false
    else false

/-- Maximum preview length in bytes (the max_length of render_preview). -/
def maxLength : Nat := 50

/-- Bytes collected by render_preview before validation:
source.bytes().skip(range.start).take(length.clamp(0, max_length)), where
length = range.len() and clamp(0, 50) on a Nat is min with 50. -/
def rawBytes (source : List Nat) (range : Nat × Nat) : List Nat :=
  (source.drop range.1).take (min (range.2 - range.1) maxLength)

/-- Preview contents after the truncation marker is pushed when the range
was longer than max_length (the push_str of render_preview). -/
def previewContents (source : List Nat) (range : Nat × Nat) : List Nat :=
  rawBytes source range ++ (if maxLength < range.2 - range.1 then dots else [])

/-- Full render_preview pipeline: collect at most 50 bytes of the range,
re-validate them as UTF-8 (String::from_utf8(..).unwrap(); none models the
panic on invalid UTF-8), append the marker if trimmed, escape line breaks
and surround by quotes. -/
def renderPreview (source : List Nat) (range : Nat × Nat) : Option (List Nat) :=
  if utf8Valid (rawBytes source range) then
    some (quoteYaml (escapeBreaks (previewContents source range)))
  else none

/-- Grammar items of the language definition, one constructor per variant
of codegen_language_definition::model::Item, each carrying the item name
(names and rule kinds are identified and represented as Nat ids). -/
inductive Item where
  | struct (name : Nat)
  | enum (name : Nat)
  | repeated (name : Nat)
  | separated (name : Nat)
  | precedence (name : Nat)
  | trivia (name : Nat)
  | keyword (name : Nat)
  | token (name : Nat)
  | fragment (name : Nat)
deriving DecidableEq

/-- Name of a grammar item (Item::name). -/
def Item.nameOf : Item → Nat
  | .struct n | .enum n | .repeated n | .separated n | .precedence n
  | .trivia n | .keyword n | .token n | .fragment n => n

/-- Tests whether an item is a Repeated or Separated item. -/
def Item.repSep : Item → Bool
  | .repeated _ | .separated _ => true
  | _ => false

/-- Tests whether an item has one of the non-terminal tags the source
comments call inlinable (Struct, Enum, Precedence). -/
def Item.inlinableTag : Item → Bool
  | .struct _ | .enum _ | .precedence _ => true
  | _ => false

/-- The NON_INLINABLE set: iterate over all grammar items and insert the
name of every Repeated or Separated item, exactly as the Lazy initializer
at the bottom of the file does. -/
def nonInlinable (items : List Item) : List Nat :=
  items.filterMap (fun item =>
    match item with
    | .repeated n | .separated n => some n
    | _ => none)

/-- Modelled from the spec: the CST node type of the slang_solidity crate
(not under src; only this consumer is). A node is a Rule node (kind,
children) or a Token node (kind); following section 3 and 4.3 of the spec
each node carries its byte text range, and the optional field name under
which the parent bound it (CursorWithNames node_name), as a Nat id. -/
inductive Node where
  | rule (name : Option Nat) (kind : Nat) (range : Nat × Nat) (children : List Node)
  | token (name : Option Nat) (kind : Nat) (range : Nat × Nat)

/-- Field name binding of a node (cursor node_name). -/
def Node.nameOf : Node → Option Nat
  | .rule nm _ _ _ => nm
  | .token nm _ _ => nm

/-- Grammar kind of a node. -/
def Node.kindOf : Node → Nat
  | .rule _ k _ _ => k
  | .token _ k _ => k

/-- Byte text range of a node (cursor text_range().utf8()). -/
def Node.rangeOf : Node → Nat × Nat
  | .rule _ _ r _ => r
  | .token _ _ r => r

/-- Children of a node; token nodes have none. -/
def Node.childrenOf : Node → List Node
  | .rule _ _ _ cs => cs
  | .token _ _ _ => []

/-- The single-child inlining test of write_node:
matches!(cursor.node(), Node::Rule(rule) if rule.children.len() == 1 &&
!NON_INLINABLE.contains(&rule.kind)). -/
def shouldInline (ni : List Nat) (n : Node) : Bool :=
  match n with
  | .rule _ k _ children => children.length == 1 && !(ni.contains k)
  | .token _ _ _ => false

mutual

/-- Number of nodes in a subtree. -/
def Node.size : Node → Nat
  | .token _ _ _ => 1
  | .rule _ _ _ cs => 1 + sizeList cs

/-- Total number of nodes in a list of subtrees. -/
def sizeList : List Node → Nat
  | [] => 0
  | c :: cs => Node.size c + sizeList cs

end

mutual

/-- Modelled from the spec: pre-order linearization of a tree, the order
in which the forward-only cursor visits nodes (children before siblings,
every node exactly once). -/
def preorderF : Node → List Node
  | .token nm k r => [.token nm k r]
  | .rule nm k r cs => .rule nm k r cs :: preorderList cs

/-- Pre-order linearization of a list of sibling subtrees. -/
def preorderList : List Node → List Node
  | [] => []
  | c :: cs => preorderF c ++ preorderList cs

end

/-- Contiguity of sibling ranges: each child range starts where the
previous one ends (spec: contiguous, non-overlapping children ranges). -/
def contiguousOk : List Node → Bool
  | [] => true
  | [_] => true
  | a :: b :: rest => ((Node.rangeOf a).2 == (Node.rangeOf b).1) && contiguousOk (b :: rest)

/-- Coverage of a rule range by its children: the range starts at the
first child's start, ends at the last child's end, and the children are
contiguous (spec: a parent's text range is the union of its children's
contiguous, non-overlapping ranges). -/
def coverageOk (r : Nat × Nat) (cs : List Node) : Bool :=
  match cs with
  | [] => true
  | c :: rest =>
    (r.1 == (Node.rangeOf c).1) && (r.2 == (Node.rangeOf (List.getLastD rest c)).2)
      && contiguousOk (c :: rest)

mutual

/-- Range-coverage well-formedness of a whole tree (spec section 8, Range
coverage). -/
def wfRanges : Node → Bool
  | .token _ _ _ => true
  | .rule _ _ r cs => coverageOk r cs && wfList cs

/-- Range-coverage well-formedness of a list of subtrees. -/
def wfList : List Node → Bool
  | [] => true
  | c :: cs => wfRanges c && wfList cs

end

/-- Tests that render_preview succeeds (does not hit the from_utf8 panic)
on the text range of a node. -/
def previewOk (source : List Nat) (n : Node) : Bool :=
  (renderPreview source (Node.rangeOf n)).isSome

mutual

/-- Tests that render_preview succeeds on every node of a subtree. -/
def allPreviewsOk (source : List Nat) : Node → Bool
  | .token nm k r => previewOk source (.token nm k r)
  | .rule nm k r cs => previewOk source (.rule nm k r cs) && allPreviewsList source cs

/-- Tests that render_preview succeeds on every node of a list of
subtrees. -/
def allPreviewsList (source : List Nat) : List Node → Bool
  | [] => true
  | c :: cs => allPreviewsOk source c && allPreviewsList source cs

end

/-- Node reached from n by the single-child inlining loop of write_node:
descend through the unique child while the current node is a Rule with
exactly one child whose kind is not in the NON_INLINABLE set. -/
def chainEnd (ni : List Nat) : Node → Node
  | .rule nm k r [c] => if ni.contains k then .rule nm k r [c] else chainEnd ni c
  | n => n

/-- Last node of a subtree in pre-order (the node the cursor rests on
after the subtree has been fully written). -/
def Node.lastPre (n : Node) : Node := (preorderF n).getLastD n

/-- Node the cursor rests on after writing a list of sibling subtrees,
starting from the node x it rested on before: x itself if there are no
children, else the pre-order-last node of the last child. -/
def lastVisited (x : Node) (cs : List Node) : Node :=
  match cs with
  | [] => x
  | c :: cs' => Node.lastPre (List.getLastD cs' c)

/-- Errors of the rendering model: assertion failures and the
String::from_utf8 panic of the Rust code, plus fuel exhaustion of the
model (which never occurs with enough fuel). -/
inductive SnapErr where
  | fuelOut
  | emptyCursor
  | advanceFailed
  | rangeMismatch
  | previewPanic
  | finalAdvance
deriving DecidableEq

/-- One rendered tree line of the snapshot: indentation depth, the chain
of keys written by the inlining loop (each key the pair of the optional
snake-cased field name and the kind, as ids), and the rendered value. -/
inductive SnapLine where
  | node (depth : Nat) (keys : List (Option Nat × Nat)) (value : List Nat)

/-- Key rendered for a node by render_key: its optional field name and
its kind (the snake-case conversion of the external inflector crate is
identity on the name ids of the model). -/
def keyOf (n : Node) : Option Nat × Nat := (Node.nameOf n, Node.kindOf n)

/-- Modelled from the spec: go_to_next of the slang_solidity cursor (not
under src). On the list of not-yet-visited nodes in pre-order whose head
is the current node, advancing moves to the next node and reports whether
one exists (none models go_to_next returning false). -/
def goToNext : List Node → Option (List Node)
  | _ :: b :: rest => some (b :: rest)
  | _ => none

/-- Decimal digits (ASCII bytes) of a natural number, as the Rust Display
formatting produces. -/
def natDigits (n : Nat) : List Nat := (Nat.toDigits 10 n).map Char.toNat

/-- Debug formatting of a Range: start..end. -/
def rangeFmt (r : Nat × Nat) : List Nat := natDigits r.1 ++ [46, 46] ++ natDigits r.2

/-- Value rendered for a childless Rule node: empty list marker, space,
hash, space, parenthesized range. -/
def emptyRuleFmt (r : Nat × Nat) : List Nat := [91, 93, 32, 35, 32, 40] ++ rangeFmt r ++ [41]

/-- Value rendered for a Rule node with children: hash, space, preview,
space, parenthesized range. -/
def hashFmt (p : List Nat) (r : Nat × Nat) : List Nat :=
  [35, 32] ++ p ++ [32, 40] ++ rangeFmt r ++ [41]

/-- Value rendered for a Token node: preview, space, hash, space,
parenthesized range. -/
def tokenFmt (p : List Nat) (r : Nat × Nat) : List Nat :=
  p ++ [32, 35, 32, 40] ++ rangeFmt r ++ [41]

/-- The render_value function: computes the preview of the node's text
range first (none models the render_preview panic), then dispatches on
childless Rule / Rule with children / Token. -/
def renderValue (source : List Nat) (n : Node) : Option (List Nat) :=
  match renderPreview source (Node.rangeOf n) with
  | none => none
  | some preview =>
    match n with
    | .rule _ _ r [] => some (emptyRuleFmt r)
    | .rule _ _ r (_ :: _) => some (hashFmt preview r)
    | .token _ _ r => some (tokenFmt preview r)

/-- The inlining loop at the top of write_node: write the key of the
current node; while the current node is a single-child Rule whose kind is
inlinable, assert that go_to_next succeeds, assert that the child's text
range equals the parent's, and continue with the child, collecting the
key chain. -/
def inlineChainF : Nat → List Nat → List Node →
    Except SnapErr (List Node × List (Option Nat × Nat))
  | 0, _, _ => .error .fuelOut
  | f + 1, ni, s =>
    match s with
    | [] => .error .emptyCursor
    | n :: rest =>
      if shouldInline ni n then
        match goToNext (n :: rest) with
        | none => .error .advanceFailed
        | some [] => .error .emptyCursor
        | some (c :: rest') =>
          if Node.rangeOf n = Node.rangeOf c then
            match inlineChainF f ni (c :: rest') with
            | .error e => .error e
            | .ok (st, keys) => .ok (st, keyOf n :: keys)
          else .error .rangeMismatch
      else .ok (n :: rest, [keyOf n])

mutual

/-- The write_node function over the cursor model: run the inlining loop,
render the value of the node the loop stopped on, then advance once per
child of that node, recursively writing each child one level deeper.
Fuel only bounds recursion depth of the model; assertions map to errors. -/
def writeNodeF : Nat → List Nat → List Nat → Nat → List Node →
    Except SnapErr (List Node × List SnapLine)
  | 0, _, _, _, _ => .error .fuelOut
  | f + 1, ni, source, depth, s =>
    match inlineChainF (f + 1) ni s with
    | .error e => .error e
    | .ok (s', keys) =>
      match s' with
      | [] => .error .emptyCursor
      | m :: rest =>
        match renderValue source m with
        | none => .error .previewPanic
        | some v =>
          match writeChildrenF f ni source depth (Node.childrenOf m).length (m :: rest) with
          | .error e => .error e
          | .ok (s2, ls) => .ok (s2, SnapLine.node depth keys v :: ls)

/-- The children loop of write_node: for each of the count children of
the visited node, assert that go_to_next succeeds and write the child's
subtree at depth + 1. -/
def writeChildrenF : Nat → List Nat → List Nat → Nat → Nat → List Node →
    Except SnapErr (List Node × List SnapLine)
  | _, _, _, _, 0, s => .ok (s, [])
  | 0, _, _, _, _ + 1, _ => .error .fuelOut
  | f + 1, ni, source, depth, count + 1, s =>
    match goToNext s with
    | none => .error .advanceFailed
    | some s' =>
      match writeNodeF f ni source (depth + 1) s' with
      | .error e => .error e
      | .ok (s2, ls) =>
        match writeChildrenF f ni source depth count s2 with
        | .error e => .error e
        | .ok (s3, ls') => .ok (s3, ls ++ ls')

end

/-- The write_tree function: write the root node, then assert that no
further advance is possible (assert!(!cursor.go_to_next())). -/
def writeTreeF (f : Nat) (ni source : List Nat) (s : List Node) :
    Except SnapErr (List SnapLine) :=
  match writeNodeF f ni source 0 s with
  | .error e => .error e
  | .ok (s', ls) =>
    match goToNext s' with
    | some _ => .error .finalAdvance
    | none => .ok ls

/-- Pieces of a byte string split inclusively at newline bytes, each
piece keeping its terminating newline (Rust str::split_inclusive used by
str::lines; the empty string yields no pieces). -/
def splitInclNl : List Nat → List (List Nat)
  | [] => []
  | b :: rest =>
    if b = 10 then [10] :: splitInclNl rest
    else
      match splitInclNl rest with
      | [] => [[b]]
      | p :: ps => (b :: p) :: ps

/-- Per-piece map of Rust str::lines: strip one trailing newline, and if
one was stripped also strip one trailing carriage return. -/
def linesMap (p : List Nat) : List Nat :=
  if p.getLast? = some 10 then
    if p.dropLast.getLast? = some 13 then p.dropLast.dropLast else p.dropLast
  else p

/-- Rust str::lines over a byte string. -/
def linesOf (src : List Nat) : List (List Nat) := (splitInclNl src).map linesMap

/-- Character count of a valid UTF-8 byte list (Rust str chars().count()):
the number of non-continuation bytes. -/
def charCount (l : List Nat) : Nat := (l.filter (fun b => !(utf8Cont b))).length

/-- The source_width of write_source: the maximum character count over
all lines, at least 80. -/
def sourceWidth (src : List Nat) : Nat :=
  max (((linesOf src).map charCount).foldr max 0) 80

/-- One output line of write_source: the empty-source marker, the header,
or a printed source line carrying its one-based number, text, padding
width and the annotated byte range. -/
inductive SourceOut where
  | emptyStr
  | header
  | line (lineNumber : Nat) (text : List Nat) (padding : Nat) (range : Nat × Nat)

/-- The per-line loop of write_source: each line is annotated with the
range offset..offset + bytes, and the offset then advances to
range.end + 1. -/
def srcGo (width : Nat) : Nat → List (Nat × List Nat) → List SourceOut
  | _, [] => []
  | offset, (index, l) :: rest =>
    SourceOut.line (index + 1) l (width - charCount l) (offset, offset + l.length)
      :: srcGo width (offset + l.length + 1) rest

/-- The write_source function: the quoted-empty marker for an empty
source, otherwise a header followed by one annotated line per source
line. -/
def writeSource (src : List Nat) : List SourceOut :=
  if src = [] then [SourceOut.emptyStr]
  else SourceOut.header :: srcGo (sourceWidth src) 0 (linesOf src).enum

/-- Byte ranges annotated on the printed source lines, in order. -/
def lineRanges (outs : List SourceOut) : List (Nat × Nat) :=
  outs.filterMap (fun o =>
    match o with
    | .line _ _ _ r => some r
    | _ => none)

/-- One output line of write_errors: the explicit empty-list marker, the
header carrying the diagnostic count, the dash line starting one
diagnostic block, or one indented content line of a diagnostic. -/
inductive ErrLine where
  | marker
  | header (count : Nat)
  | itemStart
  | content (l : List Nat)
deriving DecidableEq

/-- The write_errors function: the marker if the list is empty, otherwise
a header with the exact count followed, per diagnostic in order, by a
block start line and one content line per line of the diagnostic. -/
def writeErrors (errors : List (List Nat)) : List ErrLine :=
  if errors.isEmpty then [ErrLine.marker]
  else ErrLine.header errors.length ::
    errors.flatMap (fun e => ErrLine.itemStart :: (linesOf e).map ErrLine.content)

/-- The CstSnapshots::render entry point: renders the annotated source,
the diagnostics and the tree walked from the given cursor into one
structured snapshot. -/
def render (f : Nat) (ni source : List Nat) (errors : List (List Nat))
    (cursor : List Node) :
    Except SnapErr (List SourceOut × List ErrLine × List SnapLine) :=
  match writeTreeF f ni source cursor with
  | .error e => .error e
  | .ok tree => .ok (writeSource source, writeErrors errors, tree)

/-- Tests that every maximal run of the byte q in the list has even
length, i.e. that every occurrence of q is escaped by doubling. -/
def quoteRunsEven (q : Nat) : List Nat → Bool
  | [] => true
  | [a] => decide (a ≠ q)
  | a :: b :: rest =>
    if a = q then (if b = q then quoteRunsEven q rest else false)
    else quoteRunsEven q (b :: rest)

theorem quoteRunsEven_cons_ne (q a : Nat) (l : List Nat) (h : a ≠ q) :
    quoteRunsEven q (a :: l) = quoteRunsEven q l := by
  cases l with
  | nil => simp [quoteRunsEven, h]
  | cons b rest => simp [quoteRunsEven, h]

theorem quoteRunsEven_replace (q : Nat) (l : List Nat) :
    quoteRunsEven q (replaceByte q [q, q] l) = true := by
  induction l with
  | nil => rfl
  | cons b rest ih =>
    by_cases hb : b = q
    · simp only [replaceByte, List.flatMap_cons, if_pos hb, hb]
      show quoteRunsEven q (q :: q :: replaceByte q [q, q] rest) = true
      simpa [quoteRunsEven] using ih
    · simp only [replaceByte, List.flatMap_cons, if_neg hb]
      show quoteRunsEven q (b :: replaceByte q [q, q] rest) = true
      rw [quoteRunsEven_cons_ne q b _ hb]
      exact ih

theorem replaceByte_id (a : Nat) (sub l : List Nat) (h : ¬ a ∈ l) :
    replaceByte a sub l = l := by
  induction l with
  | nil => rfl
  | cons b rest ih =>
    have hb : b ≠ a := by rintro rfl; exact h (List.mem_cons_self b rest)
    have hrest : ¬ a ∈ rest := fun hm => h (List.mem_cons_of_mem b hm)
    simp [replaceByte, hb, List.flatMap_cons] at ih ⊢
    exact ih hrest

/-- Claim C2: every preview rendered by render_preview is surrounded by
quote characters, and the emitted quoted string never contains an
unescaped occurrence of its own delimiter: with double quotes the body
contains no double quote at all, with single quotes every internal single
quote is escaped by doubling. -/
theorem render_preview_safely_quoted :
    ∀ (source : List Nat) (r : Nat × Nat) (out : List Nat),
      renderPreview source r = some out →
      ∃ q body, out = q :: (body ++ [q]) ∧
        ((q = 34 ∧ ¬ 34 ∈ body) ∨ (q = 39 ∧ quoteRunsEven 39 body = true)) := by
  intro source r out h
  unfold renderPreview at h
  by_cases hv : utf8Valid (rawBytes source r) = true
  · rw [if_pos hv] at h
    injection h with h
    subst h
    unfold quoteYaml
    by_cases hc : (escapeBreaks (previewContents source r)).contains 34 = true
    · rw [if_pos hc]
      exact ⟨39, _, rfl, Or.inr ⟨rfl, quoteRunsEven_replace 39 _⟩⟩
    · rw [if_neg hc]
      have hmem : ¬ 34 ∈ escapeBreaks (previewContents source r) := by
        simpa using hc
      rw [replaceByte_id 34 [92, 34] _ hmem]
      exact ⟨34, _, rfl, Or.inl ⟨rfl, hmem⟩⟩
  · rw [if_neg hv] at h
    exact absurd h (by simp)

/-- Claim C2 witness at a concrete preview containing both quote kinds. -/
theorem render_preview_safely_quoted_witness :
    renderPreview [97, 34, 98, 39, 99] (0, 5) = some [39, 97, 34, 98, 39, 39, 99, 39] ∧
      ∃ q body, ([39, 97, 34, 98, 39, 39, 99, 39] : List Nat) = q :: (body ++ [q]) ∧
        ((q = 34 ∧ ¬ 34 ∈ body) ∨ (q = 39 ∧ quoteRunsEven 39 body = true)) :=
  ⟨by decide, render_preview_safely_quoted [97, 34, 98, 39, 99] (0, 5) _ (by decide)⟩

/-- Concrete source witnessing the from_utf8 panic: seventeen copies of
the euro sign (three bytes 226 130 172 each, 51 bytes in total). -/
def euroSource : List Nat := (List.replicate 17 [226, 130, 172]).flatten

/-- Claim C3: evaluation of the code at the failing input. The source is
valid UTF-8 and the byte range 0..51 covers it exactly, yet render_preview
does not return normally: truncation to the first 50 bytes cuts the final
three-byte character after two bytes, the truncated bytes are not valid
UTF-8, and the String::from_utf8(..).unwrap() re-validation fails (the
model returns none where the Rust code panics). -/
theorem render_preview_panics_on_split_char :
    utf8Valid euroSource = true ∧ euroSource.length = 51 ∧
      utf8Valid (rawBytes euroSource (0, 51)) = false ∧
      renderPreview euroSource (0, 51) = none := by decide

/-- Claim C4: for an in-bounds byte range of at most 50 bytes the preview
text before escaping and quoting is the raw bytes of the range in full
with no truncation marker; for a longer range it is exactly the first 50
bytes of the range followed by the three-dot marker. -/
theorem preview_contents_truncation :
    ∀ (source : List Nat) (r : Nat × Nat), r.1 ≤ r.2 → r.2 ≤ source.length →
      (r.2 - r.1 ≤ 50 →
        previewContents source r = (source.drop r.1).take (r.2 - r.1) ∧
          (previewContents source r).length = r.2 - r.1) ∧
      (50 < r.2 - r.1 →
        previewContents source r = (source.drop r.1).take 50 ++ dots) := by
  intro source r _hle hbound
  constructor
  · intro hsmall
    have hmin : min (r.2 - r.1) maxLength = r.2 - r.1 := by
      simp [maxLength]; omega
    have hif : ¬ maxLength < r.2 - r.1 := by simp [maxLength]; omega
    have heq : previewContents source r = (source.drop r.1).take (r.2 - r.1) := by
      simp [previewContents, rawBytes, hmin, hif]
    refine ⟨heq, ?_⟩
    rw [heq]
    simp only [List.length_take, List.length_drop]
    omega
  · intro hbig
    have hmin : min (r.2 - r.1) maxLength = 50 := by
      simp [maxLength]; omega
    have hif : maxLength < r.2 - r.1 := by simp [maxLength]; omega
    simp [previewContents, rawBytes, hmin, hif]

/-- Claim C4 witness: a five-byte range of a six-byte source, entirely
below the truncation limit, and a sixty-byte range of a long source. -/
theorem preview_contents_truncation_witness :
    (0 : Nat) ≤ 5 ∧ (5 : Nat) ≤ 6 ∧
      ((5 - 0 ≤ 50 →
        previewContents [97, 98, 99, 100, 101, 102] (0, 5) =
          (([97, 98, 99, 100, 101, 102] : List Nat).drop 0).take (5 - 0) ∧
          (previewContents [97, 98, 99, 100, 101, 102] (0, 5)).length = 5 - 0) ∧
      (50 < 5 - 0 →
        previewContents [97, 98, 99, 100, 101, 102] (0, 5) =
          (([97, 98, 99, 100, 101, 102] : List Nat).drop 0).take 50 ++ dots)) :=
  ⟨by decide, by decide,
    preview_contents_truncation [97, 98, 99, 100, 101, 102] (0, 5) (by decide) (by decide)⟩

theorem nonInlinable_match_eq (i : Item) (x : Nat) :
    ((match i with
      | .repeated n | .separated n => some n
      | _ => none) = some x) ↔ (Item.nameOf i = x ∧ Item.repSep i = true) := by
  cases i <;> simp [Item.nameOf, Item.repSep]

/-- Claim C1: the NON_INLINABLE set contains exactly the names of the
items whose tag is Repeated or Separated; with distinct item names, every
Struct, Enum or Precedence item (parenthesis-expression and
precedence-tier items included) is absent from the set; and write_node's
inlining test holds exactly on Rule nodes with exactly one child whose
kind is not in the set. -/
theorem non_inlinable_exactly_repeated_separated :
    (∀ (items : List Item) (x : Nat),
      x ∈ nonInlinable items ↔
        ∃ i ∈ items, Item.nameOf i = x ∧ Item.repSep i = true) ∧
    (∀ (items : List Item) (i : Item), (items.map Item.nameOf).Nodup →
      i ∈ items → Item.inlinableTag i = true → ¬ Item.nameOf i ∈ nonInlinable items) ∧
    (∀ (ni : List Nat) (n : Node),
      shouldInline ni n = true ↔
        ∃ nm k r c, n = Node.rule nm k r [c] ∧ ni.contains k = false) := by
  have part1 : ∀ (items : List Item) (x : Nat),
      x ∈ nonInlinable items ↔
        ∃ i ∈ items, Item.nameOf i = x ∧ Item.repSep i = true := by
    intro items x
    unfold nonInlinable
    rw [List.mem_filterMap]
    constructor
    · rintro ⟨i, hi, hfi⟩
      exact ⟨i, hi, (nonInlinable_match_eq i x).mp hfi⟩
    · rintro ⟨i, hi, hname⟩
      exact ⟨i, hi, (nonInlinable_match_eq i x).mpr hname⟩
  refine ⟨part1, ?_, ?_⟩
  · intro items i hnodup hmem htag hin
    obtain ⟨j, hj, hnamej, hrepj⟩ := (part1 items (Item.nameOf i)).mp hin
    have hij : j = i := List.inj_on_of_nodup_map hnodup hj hmem hnamej
    subst hij
    cases j <;> simp [Item.inlinableTag] at htag <;> simp [Item.repSep] at hrepj
  · intro ni n
    cases n with
    | rule nm k r cs =>
      simp only [shouldInline, Bool.and_eq_true, beq_iff_eq, Bool.not_eq_true',
        List.length_eq_one]
      constructor
      · rintro ⟨⟨c, hc⟩, hni⟩
        exact ⟨nm, k, r, c, by rw [hc], hni⟩
      · rintro ⟨nm', k', r', c, heq, hni⟩
        cases heq
        exact ⟨⟨c, rfl⟩, hni⟩
    | token nm k r =>
      simp only [shouldInline]
      constructor
      · intro h; exact absurd h (by simp)
      · rintro ⟨nm', k', r', c, heq, -⟩
        exact absurd heq (by simp)

/-- Claim C1 witness: a small grammar with one item of each relevant tag
and a concrete single-child Rule node. -/
theorem non_inlinable_exactly_repeated_separated_witness :
    ((2 : Nat) ∈ nonInlinable [Item.struct 0, Item.enum 1, Item.repeated 2,
        Item.separated 3, Item.precedence 4] ↔
      ∃ i ∈ [Item.struct 0, Item.enum 1, Item.repeated 2, Item.separated 3,
        Item.precedence 4], Item.nameOf i = 2 ∧ Item.repSep i = true) ∧
    (¬ Item.nameOf (Item.struct 0) ∈ nonInlinable [Item.struct 0, Item.enum 1,
      Item.repeated 2, Item.separated 3, Item.precedence 4]) ∧
    (shouldInline [2, 3] (Node.rule none 0 (0, 1) [Node.token none 9 (0, 1)]) = true ↔
      ∃ nm k r c, Node.rule none 0 (0, 1) [Node.token none 9 (0, 1)] = Node.rule nm k r [c] ∧
        ([2, 3] : List Nat).contains k = false) :=
  ⟨non_inlinable_exactly_repeated_separated.1 _ 2,
    non_inlinable_exactly_repeated_separated.2.1 _ _ (by decide) (by decide) (by decide),
    non_inlinable_exactly_repeated_separated.2.2 [2, 3] _⟩

/-- Tests whether an error output line starts a diagnostic block. -/
def isItemStart : ErrLine → Bool
  | .itemStart => true
  | _ => false

theorem filter_itemStart_flatMap (es : List (List Nat)) :
    ((es.flatMap (fun e => ErrLine.itemStart :: (linesOf e).map ErrLine.content)).filter
      isItemStart).length = es.length := by
  induction es with
  | nil => rfl
  | cons e es ih =>
    simp only [List.flatMap_cons, List.filter_append, List.length_append]
    have h1 : ((linesOf e).map ErrLine.content).filter isItemStart = [] := by
      simp [List.filter_map, isItemStart, Function.comp]
    simp only [List.filter_cons, isItemStart, if_pos, h1, ih]
    simp [Nat.add_comm]

/-- Claim C8: write_errors emits exactly the empty-list marker line if
and only if the diagnostics list is empty; otherwise it emits a header
carrying the exact count followed by one block per diagnostic, in input
order, none omitted or duplicated. -/
theorem write_errors_blocks :
    ∀ errors : List (List Nat),
      (writeErrors errors = [ErrLine.marker] ↔ errors = []) ∧
      (errors ≠ [] →
        writeErrors errors = ErrLine.header errors.length ::
          errors.flatMap (fun e => ErrLine.itemStart :: (linesOf e).map ErrLine.content) ∧
        ((writeErrors errors).filter isItemStart).length = errors.length) := by
  intro errors
  cases errors with
  | nil => simp [writeErrors]
  | cons e es =>
    have heq : writeErrors (e :: es) = ErrLine.header (e :: es).length ::
        (e :: es).flatMap (fun e => ErrLine.itemStart :: (linesOf e).map ErrLine.content) := by
      simp [writeErrors]
    constructor
    · rw [heq]
      constructor
      · intro h
        exact absurd (List.head_eq_of_cons_eq h) (by simp)
      · intro h; cases h
    · intro _
      refine ⟨heq, ?_⟩
      rw [heq]
      simp only [List.filter_cons, isItemStart]
      simpa using filter_itemStart_flatMap (e :: es)

/-- Claim C8 witness: the empty diagnostics list and a one-diagnostic
list. -/
theorem write_errors_blocks_witness :
    (writeErrors [] = [ErrLine.marker] ↔ ([] : List (List Nat)) = []) ∧
      (writeErrors [[97]] = ErrLine.header ([[97]] : List (List Nat)).length ::
        ([[97]] : List (List Nat)).flatMap
          (fun e => ErrLine.itemStart :: (linesOf e).map ErrLine.content) ∧
      ((writeErrors [[97]]).filter isItemStart).length = ([[97]] : List (List Nat)).length) :=
  ⟨(write_errors_blocks []).1, (write_errors_blocks [[97]]).2 (by decide)⟩

theorem renderPreview_head (source : List Nat) (r : Nat × Nat) (p : List Nat)
    (h : renderPreview source r = some p) :
    p.head? = some 34 ∨ p.head? = some 39 := by
  unfold renderPreview at h
  by_cases hv : utf8Valid (rawBytes source r) = true
  · rw [if_pos hv] at h
    injection h with h
    subst h
    unfold quoteYaml
    by_cases hc : (escapeBreaks (previewContents source r)).contains 34 = true
    · rw [if_pos hc]; right; rfl
    · rw [if_neg hc]; left; rfl
  · rw [if_neg hv] at h
    exact absurd h (by simp)

/-- Category of a node for render_value dispatch: childless Rule node,
Rule node with children, or Token node. -/
inductive ValueCat where
  | emptyRule
  | innerRule
  | tokenNode
deriving DecidableEq

/-- Category of a node as matched by render_value. -/
def valueCat : Node → ValueCat
  | .rule _ _ _ [] => .emptyRule
  | .rule _ _ _ (_ :: _) => .innerRule
  | .token _ _ _ => .tokenNode

/-- Claim C10: render_value renders a childless Rule node as the
empty-list value with no preview, a Rule node with children as a
comment-prefixed preview, and a Token node as preview then comment; the
category is recoverable from the first byte of the rendered value alone
(left bracket, hash, or a quote character). -/
theorem render_value_distinguishes :
    ∀ (source : List Nat) (n : Node) (out : List Nat),
      renderValue source n = some out →
      ∃ p, renderPreview source (Node.rangeOf n) = some p ∧
        out = (match valueCat n with
          | .emptyRule => emptyRuleFmt (Node.rangeOf n)
          | .innerRule => hashFmt p (Node.rangeOf n)
          | .tokenNode => tokenFmt p (Node.rangeOf n)) ∧
        ((valueCat n = .emptyRule ↔ out.head? = some 91) ∧
         (valueCat n = .innerRule ↔ out.head? = some 35) ∧
         (valueCat n = .tokenNode ↔ (out.head? = some 34 ∨ out.head? = some 39))) := by
  intro source n out h
  unfold renderValue at h
  cases hp : renderPreview source (Node.rangeOf n) with
  | none => rw [hp] at h; exact absurd h (by simp)
  | some p =>
    rw [hp] at h
    refine ⟨p, rfl, ?_⟩
    have hhead := renderPreview_head source (Node.rangeOf n) p hp
    cases n with
    | rule nm k r cs =>
      cases cs with
      | nil =>
        injection h with h
        subst h
        refine ⟨rfl, ?_⟩
        simp [valueCat, emptyRuleFmt]
      | cons c cs' =>
        injection h with h
        subst h
        refine ⟨rfl, ?_⟩
        simp [valueCat, hashFmt]
    | token nm k r =>
      injection h with h
      subst h
      obtain ⟨b, bs, hb, hbval⟩ : ∃ b bs, p = b :: bs ∧ (b = 34 ∨ b = 39) := by
        cases p with
        | nil => simp at hhead
        | cons b bs =>
          refine ⟨b, bs, rfl, ?_⟩
          simpa using hhead
      subst hb
      refine ⟨rfl, ?_⟩
      rcases hbval with hb | hb <;> subst hb <;> simp [valueCat, tokenFmt]

/-- Claim C10 witness: a concrete Token node over a one-byte source. -/
theorem render_value_distinguishes_witness :
    renderValue [97] (Node.token none 5 (0, 1)) =
      some [34, 97, 34, 32, 35, 32, 40, 48, 46, 46, 49, 41] ∧
    ∃ p, renderPreview [97] (Node.rangeOf (Node.token none 5 (0, 1))) = some p ∧
      [34, 97, 34, 32, 35, 32, 40, 48, 46, 46, 49, 41] =
        (match valueCat (Node.token none 5 (0, 1)) with
          | .emptyRule => emptyRuleFmt (Node.rangeOf (Node.token none 5 (0, 1)))
          | .innerRule => hashFmt p (Node.rangeOf (Node.token none 5 (0, 1)))
          | .tokenNode => tokenFmt p (Node.rangeOf (Node.token none 5 (0, 1)))) ∧
      ((valueCat (Node.token none 5 (0, 1)) = .emptyRule ↔
          ([34, 97, 34, 32, 35, 32, 40, 48, 46, 46, 49, 41] : List Nat).head? = some 91) ∧
       (valueCat (Node.token none 5 (0, 1)) = .innerRule ↔
          ([34, 97, 34, 32, 35, 32, 40, 48, 46, 46, 49, 41] : List Nat).head? = some 35) ∧
       (valueCat (Node.token none 5 (0, 1)) = .tokenNode ↔
          (([34, 97, 34, 32, 35, 32, 40, 48, 46, 46, 49, 41] : List Nat).head? = some 34 ∨
           ([34, 97, 34, 32, 35, 32, 40, 48, 46, 46, 49, 41] : List Nat).head? = some 39))) :=
  ⟨by decide, render_value_distinguishes [97] (Node.token none 5 (0, 1)) _ (by decide)⟩

/-- Ranges annotated on successive lines, as the offset loop of
write_source computes them: each range is offset..offset + bytes, and the
next offset is the range's end plus one. -/
def rangesFrom : Nat → List (List Nat) → List (Nat × Nat)
  | _, [] => []
  | o, l :: ls => (o, o + l.length) :: rangesFrom (o + l.length + 1) ls

/-- Tests that each range in the list starts one byte past the end of the
previous one. -/
def rangesChained : List (Nat × Nat) → Bool
  | [] => true
  | [_] => true
  | r :: r' :: rest => (r'.1 == r.2 + 1) && rangesChained (r' :: rest)

/-- Shape invariant of split_inclusive pieces: every piece is nonempty
and every piece but the last ends with a newline byte. -/
def PiecesShape : List (List Nat) → Prop
  | [] => True
  | [p] => p ≠ []
  | p :: q :: rest => p.getLast? = some 10 ∧ PiecesShape (q :: rest)

theorem srcGo_lineRanges (w : Nat) :
    ∀ (pairs : List (Nat × List Nat)) (o : Nat),
      lineRanges (srcGo w o pairs) = rangesFrom o (pairs.map Prod.snd) := by
  intro pairs
  induction pairs with
  | nil => intro o; rfl
  | cons pr rest ih =>
    intro o
    obtain ⟨i, l⟩ := pr
    simp only [srcGo, lineRanges, List.filterMap_cons, List.map_cons, rangesFrom]
    exact congrArg _ (ih _)

theorem rangesFrom_forall₂ :
    ∀ (ls : List (List Nat)) (o : Nat),
      List.Forall₂ (fun (r : Nat × Nat) (l : List Nat) => r.2 = r.1 + l.length)
        (rangesFrom o ls) ls := by
  intro ls
  induction ls with
  | nil => intro o; exact List.Forall₂.nil
  | cons l rest ih => intro o; exact List.Forall₂.cons rfl (ih _)

theorem rangesChained_rangesFrom :
    ∀ (ls : List (List Nat)) (o : Nat), rangesChained (rangesFrom o ls) = true := by
  intro ls
  induction ls with
  | nil => intro o; rfl
  | cons l rest ih =>
    intro o
    cases rest with
    | nil => rfl
    | cons l' rest' =>
      have h2 := ih (o + l.length + 1)
      simp only [rangesFrom] at h2 ⊢
      simp only [rangesChained, Bool.and_eq_true, beq_iff_eq]
      exact ⟨trivial, h2⟩

theorem splitInclNl_ne_nil (src : List Nat) (h : src ≠ []) : splitInclNl src ≠ [] := by
  cases src with
  | nil => exact absurd rfl h
  | cons b rest =>
    unfold splitInclNl
    by_cases hb : b = 10
    · simp [hb]
    · rw [if_neg hb]
      cases splitInclNl rest <;> simp

theorem splitInclNl_flatten : ∀ src : List Nat, (splitInclNl src).flatten = src := by
  intro src
  induction src with
  | nil => rfl
  | cons b rest ih =>
    unfold splitInclNl
    by_cases hb : b = 10
    · subst hb
      simp [ih]
    · rw [if_neg hb]
      cases hs : splitInclNl rest with
      | nil =>
        have : rest = [] := by
          by_contra hne
          exact splitInclNl_ne_nil rest hne hs
        simp [this]
      | cons p ps =>
        rw [hs] at ih
        simpa using ih

theorem splitInclNl_shape : ∀ src : List Nat, PiecesShape (splitInclNl src) := by
  intro src
  induction src with
  | nil => exact trivial
  | cons b rest ih =>
    unfold splitInclNl
    by_cases hb : b = 10
    · rw [if_pos hb]
      cases hs : splitInclNl rest with
      | nil => exact (by simp : ([10] : List Nat) ≠ [])
      | cons p ps =>
        rw [hs] at ih
        exact ⟨rfl, ih⟩
    · rw [if_neg hb]
      cases hs : splitInclNl rest with
      | nil => exact (by simp : (b :: [] : List Nat) ≠ [])
      | cons p ps =>
        rw [hs] at ih
        cases ps with
        | nil => simp [PiecesShape]
        | cons q qs =>
          obtain ⟨hp10, hrest⟩ := ih
          have hpne : p ≠ [] := by
            rintro rfl
            simp at hp10
          refine ⟨?_, hrest⟩
          cases p with
          | nil => exact absurd rfl hpne
          | cons x xs => rw [List.getLast?_cons_cons]; exact hp10

theorem linesMap_no_cr (p : List Nat) (h : ¬ 13 ∈ p) :
    linesMap p = if p.getLast? = some 10 then p.dropLast else p := by
  unfold linesMap
  by_cases h10 : p.getLast? = some 10
  · rw [if_pos h10, if_pos h10]
    by_cases h13 : p.dropLast.getLast? = some 13
    · exfalso
      have hmem : (13 : Nat) ∈ p.dropLast.getLast? := by simp [h13]
      obtain ⟨hne, heq⟩ := List.mem_getLast?_eq_getLast hmem
      exact h (List.dropLast_subset p (heq ▸ List.getLast_mem hne))
    · rw [if_neg h13]
  · rw [if_neg h10, if_neg h10]

theorem spans_pieces :
    ∀ (ps : List (List Nat)) (o : Nat) (src : List Nat),
      src.drop o = ps.flatten → (∀ p ∈ ps, ¬ 13 ∈ p) → PiecesShape ps →
      List.Forall₂
        (fun (r : Nat × Nat) (l : List Nat) => (src.drop r.1).take (r.2 - r.1) = l)
        (rangesFrom o (ps.map linesMap)) (ps.map linesMap) := by
  intro ps
  induction ps with
  | nil => intro o src _ _ _; exact List.Forall₂.nil
  | cons p ps' ih =>
    intro o src hdrop hnocr hshape
    have hpn : ¬ 13 ∈ p := hnocr p (List.mem_cons_self p ps')
    have hflat : src.drop o = p ++ ps'.flatten := by simpa using hdrop
    rw [List.map_cons]
    cases ps' with
    | nil =>
      have hpne : p ≠ [] := hshape
      have hsrc : src.drop o = p := by simpa using hflat
      refine List.Forall₂.cons ?_ List.Forall₂.nil
      rw [linesMap_no_cr p hpn]
      by_cases h10 : p.getLast? = some 10
      · rw [if_pos h10]
        show List.take (o + p.dropLast.length - o) (List.drop o src) = p.dropLast
        have hlen : (o + p.dropLast.length) - o = p.length - 1 := by
          rw [List.length_dropLast]; omega
        rw [hlen, hsrc, ← List.dropLast_eq_take]
      · rw [if_neg h10]
        show List.take (o + p.length - o) (List.drop o src) = p
        have hlen : (o + p.length) - o = p.length := by omega
        rw [hlen, hsrc, List.take_length]
    | cons q qs =>
      obtain ⟨h10, hshape'⟩ := hshape
      have hpne : p ≠ [] := by rintro rfl; simp at h10
      have hplen : 1 ≤ p.length := List.length_pos.mpr hpne
      have hL : linesMap p = p.dropLast := by
        rw [linesMap_no_cr p hpn, if_pos h10]
      rw [hL]
      refine List.Forall₂.cons ?_ ?_
      · show List.take (o + p.dropLast.length - o) (List.drop o src) = p.dropLast
        have hlen : (o + p.dropLast.length) - o = p.length - 1 := by
          rw [List.length_dropLast]; omega
        rw [hlen, hflat, List.take_append_of_le_length (by omega), ← List.dropLast_eq_take]
      · have hnext : o + p.dropLast.length + 1 = o + p.length := by
          rw [List.length_dropLast]; omega
        rw [hnext]
        have hdrop' : src.drop (o + p.length) = (q :: qs).flatten := by
          have hdd : src.drop (o + p.length) = (src.drop o).drop p.length := by
            rw [List.drop_drop]
          rw [hdd, hflat, List.drop_left]
        exact ih (o + p.length) src hdrop'
          (fun x hx => hnocr x (List.mem_cons_of_mem p hx)) hshape'

/-- Source used as the counterexample: two lines separated by a
carriage-return line-feed pair. -/
def crlfSource : List Nat := [97, 98, 13, 10, 99, 100]

/-- Claim C7 counterexample: on a carriage-return line-feed source the
printed ranges are not the byte spans of the lines. The second line (the
two bytes 99 100) is annotated with range 3..5, but the source bytes at
3..5 are 10 and 99 — str::lines strips the two-byte line ending while the
offset only advances by one past each line. -/
theorem write_source_crlf_range_mismatch :
    lineRanges (writeSource crlfSource) = [(0, 2), (3, 5)] ∧
      linesOf crlfSource = [[97, 98], [99, 100]] ∧
      (crlfSource.drop 3).take 2 = [10, 99] ∧
      ¬ (crlfSource.drop 3).take 2 = [99, 100] := by decide

/-- Claim C7 (amended): the printed ranges satisfy exactly the offset
recurrence of the code: each line's range length equals the line's byte
length, the first range starts at zero, and every later range starts one
byte past the previous range's end; when the source contains no carriage
return the printed ranges are additionally the exact byte spans of the
lines in the input. -/
theorem write_source_ranges :
    ∀ source : List Nat,
      List.Forall₂ (fun (r : Nat × Nat) (l : List Nat) => r.2 = r.1 + l.length)
        (lineRanges (writeSource source)) (linesOf source) ∧
      (∀ r, (lineRanges (writeSource source)).head? = some r → r.1 = 0) ∧
      rangesChained (lineRanges (writeSource source)) = true ∧
      (¬ 13 ∈ source →
        List.Forall₂
          (fun (r : Nat × Nat) (l : List Nat) => (source.drop r.1).take (r.2 - r.1) = l)
          (lineRanges (writeSource source)) (linesOf source)) := by
  intro source
  by_cases hsrc : source = []
  · subst hsrc
    refine ⟨List.Forall₂.nil, ?_, rfl, fun _ => List.Forall₂.nil⟩
    intro r hr
    simp [writeSource, lineRanges] at hr
  · have hlr : lineRanges (writeSource source) = rangesFrom 0 (linesOf source) := by
      rw [writeSource, if_neg hsrc]
      show lineRanges (srcGo (sourceWidth source) 0 (linesOf source).enum) = _
      rw [srcGo_lineRanges, List.enum_map_snd]
    refine ⟨?_, ?_, ?_, ?_⟩
    · rw [hlr]; exact rangesFrom_forall₂ (linesOf source) 0
    · intro r hr
      rw [hlr] at hr
      cases hls : linesOf source with
      | nil => rw [hls] at hr; simp [rangesFrom] at hr
      | cons l ls =>
        rw [hls] at hr
        simp only [rangesFrom, List.head?_cons, Option.some_inj] at hr
        rw [← hr]
    · rw [hlr]; exact rangesChained_rangesFrom (linesOf source) 0
    · intro hnocr
      rw [hlr]
      have hpieces : ∀ p ∈ splitInclNl source, ¬ 13 ∈ p := by
        intro p hp hmem
        apply hnocr
        rw [← splitInclNl_flatten source]
        exact List.mem_flatten.mpr ⟨p, hp, hmem⟩
      have := spans_pieces (splitInclNl source) 0 source (by simpa using
        (splitInclNl_flatten source).symm) hpieces (splitInclNl_shape source)
      simpa [linesOf] using this

/-- Claim C7 witness: a concrete two-line line-feed source. -/
theorem write_source_ranges_witness :
    List.Forall₂ (fun (r : Nat × Nat) (l : List Nat) => r.2 = r.1 + l.length)
      (lineRanges (writeSource [97, 10, 98])) (linesOf [97, 10, 98]) ∧
    (0, 1).1 = 0 ∧
    rangesChained (lineRanges (writeSource [97, 10, 98])) = true ∧
    List.Forall₂
      (fun (r : Nat × Nat) (l : List Nat) =>
        (([97, 10, 98] : List Nat).drop r.1).take (r.2 - r.1) = l)
      (lineRanges (writeSource [97, 10, 98])) (linesOf [97, 10, 98]) :=
  ⟨(write_source_ranges [97, 10, 98]).1,
    (write_source_ranges [97, 10, 98]).2.1 (0, 1) (by decide),
    (write_source_ranges [97, 10, 98]).2.2.1,
    (write_source_ranges [97, 10, 98]).2.2.2 (by decide)⟩

theorem node_ind (P : Node → Prop)
    (hstep : ∀ n, (∀ m, Node.size m < Node.size n → P m) → P n) : ∀ n, P n := by
  have key : ∀ N n, Node.size n ≤ N → P n := by
    intro N
    induction N with
    | zero =>
      intro n h
      exact hstep n (fun m hm => absurd (Nat.lt_of_lt_of_le hm h) (Nat.not_lt_zero _))
    | succ N ih =>
      intro n h
      exact hstep n (fun m hm => ih m (by omega))
  intro n
  exact key (Node.size n) n le_rfl

theorem size_pos (n : Node) : 1 ≤ Node.size n := by
  cases n with
  | token nm k r => exact le_rfl
  | rule nm k r cs => simp [Node.size]

theorem size_mem_le (c : Node) (cs : List Node) (h : c ∈ cs) : Node.size c ≤ sizeList cs := by
  induction cs with
  | nil => cases h
  | cons a cs ih =>
    rcases List.mem_cons.mp h with rfl | hmem
    · simp [sizeList]
    · have := ih hmem
      simp only [sizeList]
      omega

theorem preorderF_eq (n : Node) : preorderF n = n :: preorderList (Node.childrenOf n) := by
  cases n <;> rfl

theorem preorderF_ne_nil (n : Node) : preorderF n ≠ [] := by
  rw [preorderF_eq]
  simp

theorem preorderList_ne_nil (cs : List Node) (h : cs ≠ []) : preorderList cs ≠ [] := by
  cases cs with
  | nil => exact absurd rfl h
  | cons c cs =>
    show preorderF c ++ preorderList cs ≠ []
    simp [preorderF_ne_nil c]

theorem preorderList_length_aux (cs : List Node)
    (ih : ∀ c ∈ cs, (preorderF c).length = Node.size c) :
    (preorderList cs).length = sizeList cs := by
  induction cs with
  | nil => rfl
  | cons c cs ihl =>
    simp only [preorderList, List.length_append, sizeList]
    rw [ih c (List.mem_cons_self c cs), ihl (fun x hx => ih x (List.mem_cons_of_mem c hx))]

theorem preorder_length : ∀ n : Node, (preorderF n).length = Node.size n := by
  refine node_ind _ ?_
  intro n ih
  cases n with
  | token nm k r => rfl
  | rule nm k r cs =>
    have hmem : ∀ c ∈ cs, (preorderF c).length = Node.size c := by
      intro c hc
      apply ih
      have h1 := size_mem_le c cs hc
      show Node.size c < Node.size (Node.rule nm k r cs)
      simp only [Node.size]
      omega
    rw [preorderF_eq]
    simp only [Node.childrenOf, List.length_cons, Node.size]
    rw [preorderList_length_aux cs hmem]
    omega

theorem getLastD_irrel {α : Type} (l : List α) (a b : α) (h : l ≠ []) :
    l.getLastD a = l.getLastD b := by
  obtain ⟨y, hy⟩ : ∃ y, l.getLast? = some y :=
    ⟨_, List.getLast?_eq_getLast_of_ne_nil h⟩
  rw [List.getLastD_eq_getLast?, List.getLastD_eq_getLast?, hy]
  rfl

theorem preorderList_getLastD :
    ∀ (cs : List Node) (d : Node), (preorderList cs).getLastD d = lastVisited d cs := by
  intro cs
  induction cs with
  | nil => intro d; rfl
  | cons c cs ih =>
    intro d
    show (preorderF c ++ preorderList cs).getLastD d = lastVisited d (c :: cs)
    cases cs with
    | nil =>
      show (preorderF c ++ preorderList []).getLastD d = Node.lastPre (List.getLastD [] c)
      simp only [preorderList, List.append_nil, List.getLastD_nil]
      show (preorderF c).getLastD d = Node.lastPre c
      unfold Node.lastPre
      exact getLastD_irrel _ d c (preorderF_ne_nil c)
    | cons q qs =>
      have hBne : preorderList (q :: qs) ≠ [] := preorderList_ne_nil _ (by simp)
      have happ : (preorderF c ++ preorderList (q :: qs)).getLastD d
          = (preorderList (q :: qs)).getLastD d := by
        rw [List.getLastD_eq_getLast?, List.getLastD_eq_getLast?,
          List.getLast?_append_of_ne_nil _ hBne]
      rw [happ, ih d]
      show Node.lastPre (List.getLastD qs q) = Node.lastPre (List.getLastD (q :: qs) c)
      rw [List.getLastD_cons]

theorem lastPre_eq_lastVisited (n : Node) :
    Node.lastPre n = lastVisited n (Node.childrenOf n) := by
  cases n with
  | token nm k r => rfl
  | rule nm k r cs =>
    unfold Node.lastPre
    rw [preorderF_eq]
    show (Node.rule nm k r cs :: preorderList (Node.childrenOf (Node.rule nm k r cs))).getLastD
      (Node.rule nm k r cs) = _
    rw [List.getLastD_cons]
    exact preorderList_getLastD _ _

theorem lastPre_single (nm : Option Nat) (k : Nat) (r : Nat × Nat) (c : Node) :
    Node.lastPre (.rule nm k r [c]) = Node.lastPre c := by
  rw [lastPre_eq_lastVisited]
  rfl

theorem wfRanges_rule_parts (nm : Option Nat) (k : Nat) (r : Nat × Nat) (cs : List Node)
    (h : wfRanges (.rule nm k r cs) = true) :
    coverageOk r cs = true ∧ wfList cs = true := by
  simpa only [wfRanges, Bool.and_eq_true] using h

theorem wfList_mem (cs : List Node) (h : wfList cs = true) :
    ∀ c ∈ cs, wfRanges c = true := by
  induction cs with
  | nil => intro c hc; cases hc
  | cons a cs ih =>
    simp only [wfList, Bool.and_eq_true] at h
    intro c hc
    rcases List.mem_cons.mp hc with rfl | hmem
    · exact h.1
    · exact ih h.2 c hmem

theorem wf_single_range (nm : Option Nat) (k : Nat) (r : Nat × Nat) (c : Node)
    (h : wfRanges (.rule nm k r [c]) = true) : Node.rangeOf c = r := by
  simp only [wfRanges, coverageOk, contiguousOk, List.getLastD_nil, Bool.and_eq_true,
    beq_iff_eq] at h
  have h1 : r.1 = (Node.rangeOf c).1 := by tauto
  have h2 : r.2 = (Node.rangeOf c).2 := by tauto
  exact Prod.ext h1.symm h2.symm

theorem allPreviews_head (source : List Nat) (n : Node)
    (h : allPreviewsOk source n = true) : previewOk source n = true := by
  cases n with
  | token nm k r => exact h
  | rule nm k r cs =>
    simp only [allPreviewsOk, Bool.and_eq_true] at h
    exact h.1

theorem allPreviews_children (source : List Nat) (nm : Option Nat) (k : Nat) (r : Nat × Nat)
    (cs : List Node) (h : allPreviewsOk source (.rule nm k r cs) = true) :
    allPreviewsList source cs = true := by
  simp only [allPreviewsOk, Bool.and_eq_true] at h
  exact h.2

theorem allPreviewsList_mem (source : List Nat) (cs : List Node)
    (h : allPreviewsList source cs = true) : ∀ c ∈ cs, allPreviewsOk source c = true := by
  induction cs with
  | nil => intro c hc; cases hc
  | cons a cs ih =>
    simp only [allPreviewsList, Bool.and_eq_true] at h
    intro c hc
    rcases List.mem_cons.mp hc with rfl | hmem
    · exact h.1
    · exact ih h.2 c hmem

theorem chainEnd_token (ni : List Nat) (nm : Option Nat) (k : Nat) (r : Nat × Nat) :
    chainEnd ni (.token nm k r) = .token nm k r := rfl

theorem chainEnd_of_not_inline (ni : List Nat) (n : Node)
    (h : shouldInline ni n = false) : chainEnd ni n = n := by
  cases n with
  | token nm k r => rfl
  | rule nm k r cs =>
    cases cs with
    | nil => rfl
    | cons c cs' =>
      cases cs' with
      | nil =>
        have hk : ni.contains k = true := by
          simpa [shouldInline] using h
        show (if ni.contains k = true then Node.rule nm k r [c] else chainEnd ni c)
          = Node.rule nm k r [c]
        rw [if_pos hk]
      | cons c2 cs'' => rfl

theorem chainEnd_inline_step (ni : List Nat) (nm : Option Nat) (k : Nat) (r : Nat × Nat)
    (c : Node) (h : ni.contains k = false) :
    chainEnd ni (.rule nm k r [c]) = chainEnd ni c := by
  have hneg : ¬ (ni.contains k = true) := by rw [h]; exact Bool.false_ne_true
  show (if ni.contains k = true then Node.rule nm k r [c] else chainEnd ni c) = chainEnd ni c
  rw [if_neg hneg]

theorem size_single (nm : Option Nat) (k : Nat) (r : Nat × Nat) (c : Node) :
    Node.size (.rule nm k r [c]) = 1 + Node.size c := by
  show 1 + sizeList [c] = 1 + Node.size c
  show 1 + (Node.size c + sizeList []) = 1 + Node.size c
  show 1 + (Node.size c + 0) = 1 + Node.size c
  omega

theorem chainEnd_props (ni : List Nat) :
    ∀ n : Node, Node.size (chainEnd ni n) ≤ Node.size n ∧
      (wfRanges n = true → wfRanges (chainEnd ni n) = true) ∧
      (∀ source, allPreviewsOk source n = true → allPreviewsOk source (chainEnd ni n) = true) ∧
      Node.lastPre (chainEnd ni n) = Node.lastPre n := by
  refine node_ind _ ?_
  intro n ih
  by_cases hsi : shouldInline ni n = true
  · cases n with
    | token nm k r => simp [shouldInline] at hsi
    | rule nm k r cs =>
      cases cs with
      | nil => simp [shouldInline] at hsi
      | cons c cs' =>
        cases cs' with
        | cons c2 cs'' => simp [shouldInline] at hsi
        | nil =>
          have hk : ni.contains k = false := by
            simpa [shouldInline] using hsi
          have hce := chainEnd_inline_step ni nm k r c hk
          have hlt : Node.size c < Node.size (Node.rule nm k r [c]) := by
            rw [size_single]; omega
          obtain ⟨ih1, ih2, ih3, ih4⟩ := ih c hlt
          refine ⟨?_, ?_, ?_, ?_⟩
          · rw [hce]; exact le_trans ih1 (le_of_lt hlt)
          · intro h
            rw [hce]
            exact ih2 (wfList_mem [c] (wfRanges_rule_parts nm k r [c] h).2 c (by simp))
          · intro source h
            rw [hce]
            exact ih3 source (allPreviewsList_mem source [c]
              (allPreviews_children source nm k r [c] h) c (by simp))
          · rw [hce, ih4, lastPre_single]
  · rw [chainEnd_of_not_inline ni n (by simpa using hsi)]
    exact ⟨le_rfl, fun h => h, fun _ h => h, rfl⟩

theorem inlineChainF_step_stop (f : Nat) (ni : List Nat) (n : Node) (rest : List Node)
    (hsi : shouldInline ni n = false) :
    inlineChainF (f + 1) ni (n :: rest) = .ok (n :: rest, [keyOf n]) := by
  simp [inlineChainF, hsi]

theorem inlineChainF_step_inline (f : Nat) (ni : List Nat) (n c : Node) (rest : List Node)
    (hsi : shouldInline ni n = true) (hr : Node.rangeOf n = Node.rangeOf c) :
    inlineChainF (f + 1) ni (n :: c :: rest) =
      (match inlineChainF f ni (c :: rest) with
        | Except.error e => Except.error e
        | Except.ok (st, keys) => Except.ok (st, keyOf n :: keys)) := by
  show (if shouldInline ni n = true then
      (if Node.rangeOf n = Node.rangeOf c then
        (match inlineChainF f ni (c :: rest) with
          | Except.error e => Except.error e
          | Except.ok (st, keys) => Except.ok (st, keyOf n :: keys))
      else Except.error SnapErr.rangeMismatch)
    else Except.ok (n :: c :: rest, [keyOf n])) =
      (match inlineChainF f ni (c :: rest) with
        | Except.error e => Except.error e
        | Except.ok (st, keys) => Except.ok (st, keyOf n :: keys))
  rw [if_pos hsi, if_pos hr]

theorem inlineChain_ok (ni : List Nat) :
    ∀ n : Node, ∀ (f : Nat) (tail : List Node), wfRanges n = true → Node.size n ≤ f →
      ∃ keys, inlineChainF f ni (preorderF n ++ tail) =
        .ok (preorderF (chainEnd ni n) ++ tail, keys) := by
  refine node_ind _ ?_
  intro n ih f tail hwf hfuel
  cases f with
  | zero => exact absurd hfuel (by have := size_pos n; omega)
  | succ f' =>
    by_cases hsi : shouldInline ni n = true
    · cases n with
      | token nm k r => simp [shouldInline] at hsi
      | rule nm k r cs =>
        cases cs with
        | nil => simp [shouldInline] at hsi
        | cons c cs' =>
          cases cs' with
          | cons c2 cs'' => simp [shouldInline] at hsi
          | nil =>
            have hk : ni.contains k = false := by
              simpa [shouldInline] using hsi
            have hwfc : wfRanges c = true :=
              wfList_mem [c] (wfRanges_rule_parts nm k r [c] hwf).2 c (by simp)
            have hrange : Node.rangeOf c = r := wf_single_range nm k r c hwf
            have hlt : Node.size c < Node.size (Node.rule nm k r [c]) := by
              rw [size_single]; omega
            have hfc : Node.size c ≤ f' := by
              rw [size_single] at hfuel; omega
            obtain ⟨keys, hrec⟩ := ih c hlt f' tail hwfc hfc
            refine ⟨keyOf (Node.rule nm k r [c]) :: keys, ?_⟩
            have hstate : preorderF (Node.rule nm k r [c]) ++ tail
                = Node.rule nm k r [c] :: (preorderF c ++ tail) := by
              rw [preorderF_eq]
              show (Node.rule nm k r [c] :: (preorderF c ++ preorderList [])) ++ tail
                = Node.rule nm k r [c] :: (preorderF c ++ tail)
              show (Node.rule nm k r [c] :: (preorderF c ++ [])) ++ tail
                = Node.rule nm k r [c] :: (preorderF c ++ tail)
              simp
            rw [hstate]
            obtain ⟨pc, hpc⟩ : ∃ pc, preorderF c = c :: pc :=
              ⟨_, preorderF_eq c⟩
            rw [hpc, List.cons_append,
              inlineChainF_step_inline f' ni _ c _ hsi (by
                show r = Node.rangeOf c
                exact hrange.symm),
              ← List.cons_append, ← hpc, hrec,
              chainEnd_inline_step ni nm k r c hk]
    · refine ⟨[keyOf n], ?_⟩
      rw [chainEnd_of_not_inline ni n (by simpa using hsi)]
      obtain ⟨pn, hpn⟩ : ∃ pn, preorderF n = n :: pn := ⟨_, preorderF_eq n⟩
      rw [hpn, List.cons_append,
        inlineChainF_step_stop f' ni n _ (by simpa using hsi),
        ← List.cons_append, ← hpn]

/-- Claim C6: whenever write_node's inlining loop fires on a tree
satisfying the range-coverage invariant, the advance to the child
succeeds and the child's text range equals the parent's, so the loop runs
to its chain end without any assertion failing; in particular a
single-child Rule node's range equals its child's range. -/
theorem inline_loop_assertions_hold :
    ∀ (ni : List Nat) (n : Node) (f : Nat) (tail : List Node),
      wfRanges n = true → Node.size n ≤ f →
      (∃ keys, inlineChainF f ni (preorderF n ++ tail) =
        Except.ok (preorderF (chainEnd ni n) ++ tail, keys)) ∧
      (∀ nm k r c, n = Node.rule nm k r [c] → Node.rangeOf c = r) := by
  intro ni n f tail hwf hf
  refine ⟨inlineChain_ok ni n f tail hwf hf, ?_⟩
  rintro nm k r c rfl
  exact wf_single_range nm k r c hwf

/-- Claim C6 witness: a single-child Rule node over a one-byte source. -/
theorem inline_loop_assertions_hold_witness :
    wfRanges (Node.rule none 0 (0, 1) [Node.token none 1 (0, 1)]) = true ∧
    Node.size (Node.rule none 0 (0, 1) [Node.token none 1 (0, 1)]) ≤ 2 ∧
    ((∃ keys, inlineChainF 2 [7] (preorderF (Node.rule none 0 (0, 1)
        [Node.token none 1 (0, 1)]) ++ []) =
      Except.ok (preorderF (chainEnd [7] (Node.rule none 0 (0, 1)
        [Node.token none 1 (0, 1)])) ++ [], keys)) ∧
    (∀ nm k r c, Node.rule none 0 (0, 1) [Node.token none 1 (0, 1)] = Node.rule nm k r [c] →
      Node.rangeOf c = r)) :=
  ⟨rfl, by decide,
    inline_loop_assertions_hold [7] (Node.rule none 0 (0, 1) [Node.token none 1 (0, 1)])
      2 [] rfl (by decide)⟩

theorem writeChildrenF_step (f : Nat) (ni source : List Nat) (d count : Nat)
    (x b : Node) (rest : List Node) :
    writeChildrenF (f + 1) ni source d (count + 1) (x :: b :: rest) =
      (match writeNodeF f ni source (d + 1) (b :: rest) with
        | Except.error e => Except.error e
        | Except.ok (s2, ls) =>
          match writeChildrenF f ni source d count s2 with
          | Except.error e => Except.error e
          | Except.ok (s3, ls') => Except.ok (s3, ls ++ ls')) := rfl

theorem writeNodeF_eq (f : Nat) (ni source : List Nat) (depth : Nat) (s : List Node) :
    writeNodeF (f + 1) ni source depth s =
      (match inlineChainF (f + 1) ni s with
        | Except.error e => Except.error e
        | Except.ok (s', keys) =>
          match s' with
          | [] => Except.error SnapErr.emptyCursor
          | m :: rest =>
            match renderValue source m with
            | none => Except.error SnapErr.previewPanic
            | some v =>
              match writeChildrenF f ni source depth (Node.childrenOf m).length (m :: rest) with
              | Except.error e => Except.error e
              | Except.ok (s2, ls) => Except.ok (s2, SnapLine.node depth keys v :: ls)) := rfl

theorem lastVisited_cons (x c : Node) (cs' : List Node) :
    lastVisited x (c :: cs') = lastVisited (Node.lastPre c) cs' := by
  cases cs' with
  | nil => rfl
  | cons q qs =>
    show Node.lastPre (List.getLastD (q :: qs) c) = Node.lastPre (List.getLastD qs q)
    rw [List.getLastD_cons]

theorem renderValue_isSome (source : List Nat) (m : Node) (h : previewOk source m = true) :
    ∃ v, renderValue source m = some v := by
  unfold previewOk at h
  obtain ⟨p, hp⟩ := Option.isSome_iff_exists.mp h
  unfold renderValue
  rw [hp]
  cases m with
  | rule nm k r cs =>
    cases cs with
    | nil => exact ⟨_, rfl⟩
    | cons c cs' => exact ⟨_, rfl⟩
  | token nm k r => exact ⟨_, rfl⟩

theorem wf_childrenOf (m : Node) (h : wfRanges m = true) :
    ∀ c ∈ Node.childrenOf m, wfRanges c = true := by
  cases m with
  | token nm k r => intro c hc; cases hc
  | rule nm k r cs => exact wfList_mem cs (wfRanges_rule_parts nm k r cs h).2

theorem apo_childrenOf (source : List Nat) (m : Node) (h : allPreviewsOk source m = true) :
    ∀ c ∈ Node.childrenOf m, allPreviewsOk source c = true := by
  cases m with
  | token nm k r => intro c hc; cases hc
  | rule nm k r cs =>
    exact allPreviewsList_mem source cs (allPreviews_children source nm k r cs h)

theorem sizeList_childrenOf (m : Node) : sizeList (Node.childrenOf m) = Node.size m - 1 := by
  cases m with
  | token nm k r => rfl
  | rule nm k r cs =>
    show sizeList cs = 1 + sizeList cs - 1
    omega

theorem writeChildren_ok (ni source : List Nat) (d : Nat) :
    ∀ (cs : List Node),
      (∀ c ∈ cs, ∀ (f : Nat) (d' : Nat) (tail' : List Node),
        wfRanges c = true → allPreviewsOk source c = true → 2 * Node.size c ≤ f →
        ∃ out, writeNodeF f ni source d' (preorderF c ++ tail') =
          Except.ok (Node.lastPre c :: tail', out)) →
      (∀ c ∈ cs, wfRanges c = true ∧ allPreviewsOk source c = true) →
      ∀ (x : Node) (tail : List Node) (f : Nat), 2 * sizeList cs + 1 ≤ f →
      ∃ out, writeChildrenF f ni source d cs.length (x :: (preorderList cs ++ tail)) =
        Except.ok (lastVisited x cs :: tail, out) := by
  intro cs
  induction cs with
  | nil =>
    intro _ _ x tail f _
    cases f with
    | zero => exact ⟨[], rfl⟩
    | succ f' => exact ⟨[], rfl⟩
  | cons c cs' ih =>
    intro hnode hwfp x tail f hf
    have hszc := size_pos c
    cases f with
    | zero => omega
    | succ f'' =>
      obtain ⟨pc, hpc⟩ : ∃ pc, preorderF c = c :: pc := ⟨_, preorderF_eq c⟩
      have hstate : x :: (preorderList (c :: cs') ++ tail)
          = x :: c :: (pc ++ (preorderList cs' ++ tail)) := by
        show x :: ((preorderF c ++ preorderList cs') ++ tail) = _
        rw [hpc]
        simp
      simp only [sizeList] at hf
      obtain ⟨out1, hwn⟩ := hnode c (List.mem_cons_self c cs') f'' (d + 1)
        (preorderList cs' ++ tail) (hwfp c (by simp)).1 (hwfp c (by simp)).2 (by omega)
      obtain ⟨out2, hwc⟩ := ih (fun c' hc' => hnode c' (List.mem_cons_of_mem c hc'))
        (fun c' hc' => hwfp c' (List.mem_cons_of_mem c hc'))
        (Node.lastPre c) tail f'' (by omega)
      refine ⟨out1 ++ out2, ?_⟩
      rw [hstate]
      show writeChildrenF (f'' + 1) ni source d (cs'.length + 1)
        (x :: c :: (pc ++ (preorderList cs' ++ tail))) = _
      rw [writeChildrenF_step]
      have hcpc : c :: (pc ++ (preorderList cs' ++ tail))
          = preorderF c ++ (preorderList cs' ++ tail) := by
        rw [hpc]
        rfl
      simp only [hcpc, hwn, hwc, lastVisited_cons]

theorem writeNode_ok (ni source : List Nat) :
    ∀ n : Node, ∀ (f d : Nat) (tail : List Node),
      wfRanges n = true → allPreviewsOk source n = true → 2 * Node.size n ≤ f →
      ∃ out, writeNodeF f ni source d (preorderF n ++ tail) =
        Except.ok (Node.lastPre n :: tail, out) := by
  refine node_ind _ ?_
  intro n ih f d tail hwf hapo hf
  have hpos := size_pos n
  cases f with
  | zero => omega
  | succ f' =>
    obtain ⟨keys, hic⟩ := inlineChain_ok ni n (f' + 1) tail hwf (by omega)
    obtain ⟨hsz, hwfm', hapom', hlast⟩ := chainEnd_props ni n
    have hwfm : wfRanges (chainEnd ni n) = true := hwfm' hwf
    have hapom : allPreviewsOk source (chainEnd ni n) = true := hapom' source hapo
    have hposm := size_pos (chainEnd ni n)
    obtain ⟨v, hv⟩ := renderValue_isSome source (chainEnd ni n)
      (allPreviews_head source _ hapom)
    have hchsz := sizeList_childrenOf (chainEnd ni n)
    obtain ⟨out2, hwc⟩ := writeChildren_ok ni source d (Node.childrenOf (chainEnd ni n))
      (fun c hc f'' d' tail' hw ha hfc => ih c (by
          have h1 := size_mem_le c _ hc
          omega) f'' d' tail' hw ha hfc)
      (fun c hc => ⟨wf_childrenOf _ hwfm c hc, apo_childrenOf source _ hapom c hc⟩)
      (chainEnd ni n) tail f' (by omega)
    refine ⟨SnapLine.node d keys v :: out2, ?_⟩
    rw [writeNodeF_eq]
    have hps : preorderF (chainEnd ni n) ++ tail
        = chainEnd ni n :: (preorderList (Node.childrenOf (chainEnd ni n)) ++ tail) := by
      rw [preorderF_eq]
      rfl
    rw [hps] at hic
    simp only [hic, hv, hwc]
    rw [← lastPre_eq_lastVisited, hlast]

/-- Claim C5: on a well-formed tree whose cursor is its pre-order
linearization (and whose previews all render), write_node consumes
exactly the whole subtree - the cursor ends on the pre-order-last node
with nothing left, the pre-order list has exactly node-count entries (so
node count minus one advances occurred), and write_tree's final
assertion that go_to_next returns false succeeds. -/
theorem write_tree_walk_completes :
    ∀ (ni source : List Nat) (t : Node),
      wfRanges t = true → allPreviewsOk source t = true →
      ∃ out, writeNodeF (2 * Node.size t) ni source 0 (preorderF t) =
          Except.ok ([Node.lastPre t], out) ∧
        writeTreeF (2 * Node.size t) ni source (preorderF t) = Except.ok out ∧
        (preorderF t).length = Node.size t := by
  intro ni source t hwf hapo
  obtain ⟨out, hwn⟩ := writeNode_ok ni source t (2 * Node.size t) 0 [] hwf hapo le_rfl
  rw [List.append_nil] at hwn
  refine ⟨out, hwn, ?_, preorder_length t⟩
  unfold writeTreeF
  rw [hwn]
  rfl

/-- Claim C5 witness: a one-token tree over a one-byte source. -/
theorem write_tree_walk_completes_witness :
    wfRanges (Node.token none 0 (0, 1)) = true ∧
    allPreviewsOk [97] (Node.token none 0 (0, 1)) = true ∧
    ∃ out, writeNodeF (2 * Node.size (Node.token none 0 (0, 1))) [] [97] 0
        (preorderF (Node.token none 0 (0, 1))) =
        Except.ok ([Node.lastPre (Node.token none 0 (0, 1))], out) ∧
      writeTreeF (2 * Node.size (Node.token none 0 (0, 1))) [] [97]
        (preorderF (Node.token none 0 (0, 1))) = Except.ok out ∧
      (preorderF (Node.token none 0 (0, 1))).length = Node.size (Node.token none 0 (0, 1)) :=
  ⟨rfl, rfl, write_tree_walk_completes [] [97] (Node.token none 0 (0, 1)) rfl rfl⟩

/-- Claim C9: rendering is deterministic and side-effect free - two
invocations of render with the same source, the same diagnostics and
cursors at the root of the same immutable tree return identical
snapshots (the model is a pure function of those inputs, as the Rust
code reads the tree only through shared references). -/
theorem render_deterministic :
    ∀ (f : Nat) (ni source : List Nat) (errors : List (List Nat)) (t : Node)
      (c1 c2 : List Node), c1 = preorderF t → c2 = preorderF t →
      render f ni source errors c1 = render f ni source errors c2 := by
  intro f ni source errors t c1 c2 h1 h2
  rw [h1, h2]

/-- Claim C9 witness: two cursors at the root of the same one-token
tree. -/
theorem render_deterministic_witness :
    preorderF (Node.token none 0 (0, 1)) = preorderF (Node.token none 0 (0, 1)) ∧
    render 2 [] [97] [] (preorderF (Node.token none 0 (0, 1))) =
      render 2 [] [97] [] (preorderF (Node.token none 0 (0, 1))) :=
  ⟨rfl, render_deterministic 2 [] [97] [] (Node.token none 0 (0, 1)) _ _ rfl rfl⟩
